import Mathlib

/-!
Shallow embedding of src/utils/parser.js from the llm-conversation-manager
repository: conversation-section detection, topic classification, section
merging and raw-text parsing, together with proofs of the specification
claims about them.

Modelling conventions, used throughout:
* JavaScript strings are modelled at the character level (the inputs of
  interest are ASCII, where the UTF-16 and character views agree).
* JavaScript falsiness of the optional record fields is modelled explicitly:
  an absent or null content is the empty string (both are falsy at every use
  site), a timestamp is an Option Int in epoch milliseconds where some 0 is
  still falsy, and the wall clock Date.now() is passed in as an explicit
  now parameter.
* JavaScript numbers are exact here: timestamps are Int milliseconds and the
  merge threshold is a rational, so the float division in isTimedOut is the
  exact rational division.
-/

namespace ConvParser

/-- JavaScript whitespace (ASCII fragment): the characters matched by a
whitespace class and removed by trim. -/
def isWsChar (c : Char) : Bool :=
  c == ' ' || c == '\t' || c == '\n' || c == '\r' || c == '\x0B' || c == '\x0C'

/-- JavaScript trim on a character list. -/
def jsTrim (cs : List Char) : List Char :=
  ((cs.dropWhile isWsChar).reverse.dropWhile isWsChar).reverse

/-- JavaScript trim on a string. -/
def strTrim (s : String) : String := ⟨jsTrim s.data⟩

/-- JavaScript toLowerCase (ASCII fragment). -/
def lowerStr (s : String) : String := ⟨s.data.map Char.toLower⟩

/-- Does the second list start with the first one? -/
def startsWithChars : List Char → List Char → Bool
  | [], _ => true
  | _ :: _, [] => false
  | p :: ps, c :: cs => p == c && startsWithChars ps cs

/-- Does the needle pat occur as a contiguous substring of the haystack? -/
def containsChars (pat : List Char) : List Char → Bool
  | [] => pat.isEmpty
  | c :: cs => startsWithChars pat (c :: cs) || containsChars pat cs

/-- JavaScript String.includes: strIncludes s pat is true when pat occurs as a
substring of s. -/
def strIncludes (s pat : String) : Bool := containsChars pat.data s.data

/-- A message record as consumed and produced by parser.js.  Fields that the
code reads with a falsy check are Options (or a String whose empty value
models both the empty string and an absent field). -/
structure Message where
  id : Option Nat := none
  timestamp : Option Int := none
  content : String := ""
  author : Option String := none
  user : Option String := none
  originalContent : Option String := none
deriving Repr, DecidableEq, Inhabited

/-- A ConversationSection record, as documented at the top of parser.js. -/
structure Section where
  id : Nat
  title : String
  messages : List Message
  startTime : Int
  endTime : Int
  topic : String
  participants : List String
deriving Repr, DecidableEq, Inhabited

/-- Options of detectSections with the source's defaults. -/
structure SegOptions where
  timeGap : Int := 30
  sectionMarkers : List String := ["section:", "topic:", "discuss:", "new topic", "---", "==="]
  detectTopicChanges : Bool := true

/-- The fixed topic table of detectTopic, in the source's insertion order
(Object.entries iterates string keys in insertion order, so this order is
the tie-break order). -/
def topicsTable : List (String × List String) :=
  [("technical", ["code", "bug", "error", "function", "variable", "debug", "implement", "deploy"]),
   ("question", ["what", "how", "why", "when", "where", "?"]),
   ("discussion", ["think", "opinion", "discuss", "consider", "suggest", "propose"]),
   ("planning", ["plan", "schedule", "deadline", "milestone", "timeline", "sprint"]),
   ("feedback", ["feedback", "review", "comment", "suggestion", "improve", "better"])]

/-- detectTopic from parser.js: keyword-count scoring over topicsTable with a
strictly-greater update, seeded with score 0 and topic general. -/
def detectTopic (content : String) : String :=
  if content = "" then "general"
  else
    let lowerContent := lowerStr content
    (topicsTable.foldl
      (fun acc tk =>
        let score := (tk.2.filter (fun keyword => strIncludes lowerContent keyword)).length
        if score > acc.1 then (score, tk.1) else acc)
      (0, "general")).2

/-- hasSectionMarker from parser.js. -/
def hasSectionMarker (content : String) (markers : List String) : Bool :=
  if content = "" then false
  else markers.any (fun marker => strIncludes (lowerStr content) (lowerStr marker))

/-- hasTopicChange from parser.js.  The source's truthiness conjuncts
(prevTopic and currentTopic non-falsy) are the non-emptiness checks. -/
def hasTopicChange (prevMessage currentMessage : Message) : Bool :=
  let prevTopic := detectTopic prevMessage.content
  let currentTopic := detectTopic currentMessage.content
  (prevTopic != currentTopic) && (prevTopic != "") && (currentTopic != "")

/-- isTimedOut from parser.js.  The source computes
diffMinutes = (currentTime - lastTime) / (1000 * 60) and compares
diffMinutes > gapMinutes; the division is exact here, and the multiplied-out
integer comparison below is proved equal to that division form in
isTimedOut_div_form (it keeps the definition kernel-computable). -/
def isTimedOut (lastTime currentTime : Int) (gapMinutes : Int) : Bool :=
  decide (gapMinutes * (1000 * 60) < currentTime - lastTime)

/-- isTimedOut is exactly the source's division-form comparison. -/
lemma isTimedOut_div_form (lastTime currentTime gapMinutes : Int) :
    isTimedOut lastTime currentTime gapMinutes =
      decide ((((currentTime : ℚ) - (lastTime : ℚ)) / (1000 * 60)) > (gapMinutes : ℚ)) := by
  have hiff : ((((currentTime : ℚ) - (lastTime : ℚ)) / (1000 * 60)) > (gapMinutes : ℚ)) ↔
      (gapMinutes * (1000 * 60) < currentTime - lastTime) := by
    rw [gt_iff_lt, lt_div_iff₀ (by norm_num)]
    constructor
    · intro h; exact_mod_cast h
    · intro h; exact_mod_cast h
  simp only [isTimedOut, hiff]

/-- The first line of a string: the characters before the first newline
(content.split of a newline, first element). -/
def lineOf (cs : List Char) : List Char := cs.takeWhile (fun c => !(c == '\n'))

/-- Backtracking step shared by the two title regexes.  For a tail of the form
class-run followed by end of input, the engine backtracks the greedy class run
to the largest strict prefix whose following character is not a newline, and
the lazy dot group then captures up to the next newline or the end.  btk run
returns that group (deeper recursion corresponds to a longer retained class
run, which the engine prefers). -/
def btk : List Char → Option (List Char)
  | [] => none
  | [_] => none
  | _ :: rest =>
    match btk rest with
    | some g => some g
    | none =>
      match rest with
      | r :: _ => if r == '\n' then none else some (lineOf rest)
      | [] => none

/-- The tail of both title regexes: a greedy character-class run of length at
least one, then a lazy non-empty dot group anchored at a line end.  Both
classes used below contain the newline, so when characters remain after the
maximal run the group is the rest of that line; when the run reaches the end
of the input the engine backtracks into the run (btk). -/
def lazyTail (isCl : Char → Bool) (cs : List Char) : Option (List Char) :=
  let run := cs.takeWhile isCl
  if run.isEmpty then none
  else
    match cs.drop run.length with
    | [] => btk run
    | rest => some (lineOf rest)

/-- Matcher for the markdown-header regex of extractTitle (hash signs at a
line start, whitespace, then a lazy group to the line end, multiline).  The
Bool argument tracks whether the current position is a line start; positions
are tried left to right as the engine does. -/
def headerScan : Bool → List Char → Option (List Char)
  | _, [] => none
  | atStart, c :: tl =>
    match
      (if atStart then
        let hashes := (c :: tl).takeWhile (fun x => x == '#')
        if hashes.isEmpty then none
        else lazyTail isWsChar ((c :: tl).drop hashes.length)
      else none) with
    | some g => some g
    | none => headerScan (c == '\n') tl

/-- Whitespace-or-colon class of the second extractTitle regex. -/
def isWsColonChar (c : Char) : Bool := isWsChar c || c == ':'

/-- Case-insensitive prefix test (the keyword argument is lowercase). -/
def ciStartsWith : List Char → List Char → Bool
  | [], _ => true
  | _ :: _, [] => false
  | p :: ps, c :: cs => p == c.toLower && ciStartsWith ps cs

/-- One attempt of the section-keyword regex of extractTitle at the current
position: one of the three alternatives (they start with distinct letters, so
at most one can match here), then whitespace-or-colon, then the lazy group. -/
def tryKwAt (cs : List Char) : Option (List Char) :=
  if ciStartsWith "section".data cs then lazyTail isWsColonChar (cs.drop 7)
  else if ciStartsWith "topic".data cs then lazyTail isWsColonChar (cs.drop 5)
  else if ciStartsWith "discuss".data cs then lazyTail isWsColonChar (cs.drop 7)
  else none

/-- Matcher for the second extractTitle regex (case-insensitive, unanchored,
multiline): positions tried left to right. -/
def kwScan : List Char → Option (List Char)
  | [] => none
  | c :: tl =>
    match tryKwAt (c :: tl) with
    | some g => some g
    | none => kwScan tl

/-- extractTitle from parser.js: markdown header, then section keyword, then
the first line when shorter than 100 characters, else null. -/
def extractTitle (content : String) : Option String :=
  if content = "" then none
  else
    match headerScan true content.data with
    | some g => some ⟨jsTrim g⟩
    | none =>
      match kwScan content.data with
      | some g => some ⟨jsTrim g⟩
      | none =>
        let firstLine := ⟨jsTrim (lineOf content.data)⟩
        if String.length firstLine < 100 then some firstLine
        else none

/-- JavaScript a-or-else-b on an optional title: the empty string is falsy,
so it also falls through to the fallback. -/
def titleOrFallback (o : Option String) (fallback : String) : String :=
  match o with
  | some t => if t = "" then fallback else t
  | none => fallback

/-- Set insertion used to model the JavaScript Set: first occurrence kept,
insertion order preserved. -/
def addUnique (acc : List String) (s : String) : List String :=
  if s ∈ acc then acc else acc ++ [s]

/-- extractParticipants from parser.js: per message, add author then user when
truthy, into an insertion-ordered set. -/
def extractParticipants (messages : List Message) : List String :=
  messages.foldl
    (fun acc msg =>
      let acc :=
        match msg.author with
        | some a => if a = "" then acc else addUnique acc a
        | none => acc
      match msg.user with
      | some u => if u = "" then acc else addUnique acc u
      | none => acc)
    []

/-- The effective timestamp of a message in detectSections: a falsy timestamp
(absent, null, or 0) is replaced by the wall clock. -/
def effectiveTimestamp (now : Int) (m : Message) : Int :=
  match m.timestamp with
  | some t => if t = 0 then now else t
  | none => now

/-- The section literal created by detectSections when a boundary fires.  The
id field is the counter before the post-increment, while the title fallback
interpolates the counter after it. -/
def newSection (message : Message) (timestamp : Int) (sectionId : Nat) : Section :=
  { id := sectionId
    title := titleOrFallback (extractTitle message.content)
      ("Section " ++ toString (sectionId + 1))
    messages := [message]
    startTime := timestamp
    endTime := timestamp
    topic := detectTopic message.content
    participants := extractParticipants [message] }

/-- The in-place update of the open section on a continuing message: append
the message, move endTime (no clamping), recompute participants. -/
def appendToSection (cur : Section) (message : Message) (timestamp : Int) : Section :=
  { cur with
    messages := cur.messages ++ [message]
    endTime := timestamp
    participants := extractParticipants (cur.messages ++ [message]) }

/-- Close the open section, if any, onto the output list. -/
def pushCur (sections : List Section) : Option Section → List Section
  | some s => sections ++ [s]
  | none => sections

/-- The loop of detectSections.  State: remaining messages, closed sections,
the open section, the id counter, and the previous message (present exactly
when the loop index is positive).  When the open section is absent the first
disjunct makes shouldNewSection true, so the final branch is unreachable. -/
def detectSectionsLoop (now : Int) (opts : SegOptions) :
    List Message → List Section → Option Section → Nat → Option Message → List Section
  | [], sections, currentSection, _, _ => pushCur sections currentSection
  | message :: rest, sections, currentSection, sectionId, prevMessage =>
    let timestamp := effectiveTimestamp now message
    let shouldNewSection : Bool :=
      currentSection.isNone ||
        (match currentSection with
          | some cur => isTimedOut cur.endTime timestamp opts.timeGap
          | none => false) ||
        hasSectionMarker message.content opts.sectionMarkers ||
        (opts.detectTopicChanges &&
          (match prevMessage with
            | some prev => hasTopicChange prev message
            | none => false))
    if shouldNewSection then
      detectSectionsLoop now opts rest (pushCur sections currentSection)
        (some (newSection message timestamp sectionId)) (sectionId + 1) (some message)
    else
      match currentSection with
      | some cur =>
        detectSectionsLoop now opts rest sections
          (some (appendToSection cur message timestamp)) sectionId (some message)
      | none =>
        detectSectionsLoop now opts rest sections none sectionId (some message)

/-- detectSections from parser.js.  now models Date.now(). -/
def detectSections (now : Int) (messages : List Message)
    (opts : SegOptions := {}) : List Section :=
  if messages.isEmpty then []
  else detectSectionsLoop now opts messages [] none 0 none

/-- The default similarity threshold 0.7 of mergeSimilarSections, written as
a reduced fraction literal so that it is kernel-computable; it equals 7/10
(defaultThreshold_eq). -/
def defaultThreshold : ℚ := ⟨7, 10, by decide, by decide⟩

/-- The threshold literal is the rational 0.7. -/
lemma defaultThreshold_eq : defaultThreshold = 7 / 10 := by
  have h1 : defaultThreshold = Rat.divInt 7 10 := by
    rw [defaultThreshold, Rat.mk'_eq_divInt]; norm_num
  rw [h1, Rat.divInt_eq_div]; norm_num

/-- The fusion of an adjacent similar section into the last accumulated one in
mergeSimilarSections: messages concatenated, endTime taken from the absorbed
section, participants rebuilt as the insertion-ordered set of both lists;
id, title, topic and startTime of the surviving section are untouched. -/
def fuseSections (lastSection currentSection : Section) : Section :=
  { lastSection with
    messages := lastSection.messages ++ currentSection.messages
    endTime := currentSection.endTime
    participants :=
      (lastSection.participants ++ currentSection.participants).foldl addUnique [] }

/-- The loop of mergeSimilarSections over the value semantics: the last
accumulated section is carried separately from the already-settled prefix. -/
def mergeLoop (threshold : ℚ) : List Section → List Section → Section → List Section
  | [], acc, lastSection => acc ++ [lastSection]
  | currentSection :: rest, acc, lastSection =>
    let similarity : ℚ := if lastSection.topic = currentSection.topic then 1 else 0
    if similarity ≥ threshold then
      mergeLoop threshold rest acc (fuseSections lastSection currentSection)
    else
      mergeLoop threshold rest (acc ++ [lastSection]) currentSection

/-- mergeSimilarSections from parser.js, value-level result (what the returned
array holds, read after the call). -/
def mergeSimilarSections (sections : List Section) (threshold : ℚ := defaultThreshold) : List Section :=
  if sections.length < 2 then sections
  else
    match sections with
    | [] => sections
    | s :: rest => mergeLoop threshold rest [] s

/-- Heap model of mergeSimilarSections for the frame claims: a store of
Section records addressed by index, and the input array as a list of
addresses.  The source mutates the record behind the last accumulated address
(messages push, endTime and participants assignment), which is store.set
here; topic reads go through the store as in the source. -/
def mergeHeapLoop (threshold : ℚ) :
    List Nat → List Section → List Nat → Nat → List Section × List Nat
  | [], store, accRefs, lastRef => (store, accRefs ++ [lastRef])
  | r :: rest, store, accRefs, lastRef =>
    let lastSection := store.getD lastRef default
    let currentSection := store.getD r default
    let similarity : ℚ := if lastSection.topic = currentSection.topic then 1 else 0
    if similarity ≥ threshold then
      mergeHeapLoop threshold rest (store.set lastRef (fuseSections lastSection currentSection))
        accRefs lastRef
    else
      mergeHeapLoop threshold rest store (accRefs ++ [lastRef]) r

/-- mergeSimilarSections over the heap model: returns the final store and the
addresses held by the returned array. -/
def mergeSimilarSectionsHeap (store : List Section) (refs : List Nat)
    (threshold : ℚ := defaultThreshold) : List Section × List Nat :=
  if refs.length < 2 then (store, refs)
  else
    match refs with
    | [] => (store, refs)
    | r :: rest => mergeHeapLoop threshold rest store [] r

/-- JavaScript String.split with a non-empty delimiter, on character lists:
leftmost, non-overlapping cuts.  The Nat argument is fuel forcing structural
recursion; every step consumes at least one character, so the call sites'
fuel (input length plus one) is never exhausted. -/
def splitCharsAux (delim : List Char) : Nat → List Char → List Char → List (List Char)
  | 0, acc, cs => [acc.reverse ++ cs]
  | _ + 1, acc, [] => [acc.reverse]
  | fuel + 1, acc, c :: cs =>
    if startsWithChars delim (c :: cs) then
      acc.reverse :: splitCharsAux delim fuel [] ((c :: cs).drop delim.length)
    else
      splitCharsAux delim fuel (c :: acc) cs

/-- JavaScript String.split on strings (an empty delimiter splits into the
individual characters, as in JavaScript). -/
def strSplit (s delimiter : String) : List String :=
  if delimiter = "" then s.data.map (fun c => ⟨[c]⟩)
  else (splitCharsAux delimiter.data (s.data.length + 1) [] s.data).map (fun cs => ⟨cs⟩)

/-- The word-or-whitespace class of the default author pattern of
parseRawConversation (word characters are ASCII alphanumerics and the
underscore). -/
def wordOrWsChar (c : Char) : Bool := isWsChar c || c.isAlphanum || c == '_'

/-- One attempt of the default author regex at a line start: a lazy class run
then a colon then greedy whitespace.  The colon is outside the class, so the
lazy group can only stop at the end of the maximal class run, and the match
exists exactly when the character after that run is a colon.  Returns the
captured group and the input with the whole match removed from this
position. -/
def matchAuthorAt (cs : List Char) : Option (List Char × List Char) :=
  let run := cs.takeWhile wordOrWsChar
  if run.isEmpty then none
  else
    match cs.drop run.length with
    | ':' :: rest => some (run, rest.dropWhile isWsChar)
    | _ => none

/-- Scan of the author regex (multiline anchor: attempts happen at line starts
only, left to right); the skipped characters are kept in front of the cleaned
remainder, modelling a first-occurrence replace by the empty string. -/
def authorFind : Bool → List Char → Option (List Char × List Char)
  | _, [] => none
  | atStart, c :: tl =>
    match (if atStart then matchAuthorAt (c :: tl) else none) with
    | some r => some r
    | none => (authorFind (c == '\n') tl).map (fun p => (p.1, c :: p.2))

/-- The message literal built by parseRawConversation for one kept segment. -/
def mkParsedMessage (now : Int) (preserveFormatting : Bool) (index : Nat)
    (segment : String) : Message :=
  match authorFind true segment.data with
  | some (g, cleaned) =>
    { id := some index
      timestamp := some now
      content := ⟨jsTrim cleaned⟩
      author := some (strTrim ⟨g⟩)
      user := none
      originalContent := if preserveFormatting then some segment else none }
  | none =>
    { id := some index
      timestamp := some now
      content := strTrim segment
      author := some "Unknown"
      user := none
      originalContent := if preserveFormatting then some segment else none }

/-- The forEach of parseRawConversation: the positional index is consumed by
every segment of the filtered list, but the message is pushed only when its
cleaned content is truthy. -/
def parseSegments (now : Int) (preserveFormatting : Bool) :
    Nat → List String → List Message
  | _, [] => []
  | index, segment :: rest =>
    let message := mkParsedMessage now preserveFormatting index segment
    (if message.content = "" then [] else [message]) ++
      parseSegments now preserveFormatting (index + 1) rest

/-- parseRawConversation from parser.js with the default author pattern.
now models the wall clock taken for every message timestamp. -/
def parseRawConversation (now : Int) (text : String) (delimiter : String := "\n\n")
    (preserveFormatting : Bool := true) : List Message :=
  if text = "" then []
  else
    let segments := (strSplit text delimiter).filter (fun s => strTrim s ≠ "")
    parseSegments now preserveFormatting 0 segments

/-! ## Loop invariants of the Segmenter -/

/-- Invariant of the segmentation loop: flattening the messages of the final
output extends the flattening of the current state by the unprocessed
messages. -/
lemma loop_messages_flatten (now : Int) (opts : SegOptions) (rest : List Message) :
    ∀ (sections : List Section) (cur : Option Section) (sid : Nat) (prev : Option Message),
      ((detectSectionsLoop now opts rest sections cur sid prev).map Section.messages).flatten =
        ((pushCur sections cur).map Section.messages).flatten ++ rest := by
  induction rest with
  | nil => intro sections cur sid prev; simp [detectSectionsLoop]
  | cons message rest ih =>
    intro sections cur sid prev
    cases cur with
    | none =>
      simp only [detectSectionsLoop, Option.isNone_none, Bool.true_or, if_true]
      rw [ih]
      simp [pushCur, newSection]
    | some c =>
      simp only [detectSectionsLoop, Option.isNone_some, Bool.false_or]
      split
      · rw [ih]
        simp [pushCur, newSection]
      · rw [ih]
        simp [pushCur, appendToSection]

/-- C1: for every non-empty message list, the sections returned by
detectSections, with their messages fields concatenated in output order,
reproduce exactly the input message sequence. -/
theorem detectSections_partition (now : Int) (msgs : List Message) (opts : SegOptions)
    (h : msgs ≠ []) :
    ((detectSections now msgs opts).map Section.messages).flatten = msgs := by
  unfold detectSections
  rw [if_neg (by simpa [List.isEmpty_iff] using h)]
  simpa [pushCur] using loop_messages_flatten now opts msgs [] none 0 none

/-- Witness for detectSections_partition at a concrete one-message input. -/
theorem detectSections_partition_witness :
    ((detectSections 0 [{ content := "hello" }] {}).map Section.messages).flatten =
      [{ content := "hello" }] :=
  detectSections_partition 0 [{ content := "hello" }] {} (List.cons_ne_nil _ _)

/-- C2 counterexample: a second message whose timestamp is earlier than the
first (within the gap, no marker, no topic change) moves the open section's
endTime before its startTime, so endTime >= startTime fails on the produced
section. -/
theorem endTime_lt_startTime_cex :
    ((detectSections 0 [{ timestamp := some 60000000 }, { timestamp := some 1 }] {}).headD
        default).endTime <
      ((detectSections 0 [{ timestamp := some 60000000 }, { timestamp := some 1 }] {}).headD
        default).startTime := by decide

/-- Time invariant of the segmentation loop: when the effective timestamps
still to come extend those already seen in non-decreasing order, every emitted
section has startTime at most endTime. -/
lemma loop_time_invariant (now : Int) (opts : SegOptions) (rest : List Message) :
    ∀ (sections : List Section) (cur : Option Section) (sid : Nat) (prev : Option Message),
      (∀ s ∈ sections, s.startTime ≤ s.endTime) →
      (∀ c, cur = some c → c.startTime ≤ c.endTime ∧
        ∃ p, prev = some p ∧ c.endTime = effectiveTimestamp now p) →
      List.Chain' (· ≤ ·) ((prev.toList ++ rest).map (effectiveTimestamp now)) →
      ∀ s ∈ detectSectionsLoop now opts rest sections cur sid prev,
        s.startTime ≤ s.endTime := by
  induction rest with
  | nil =>
    intro sections cur sid prev hsec hcur _ s hs
    cases cur with
    | none => exact hsec s (by simpa [detectSectionsLoop, pushCur] using hs)
    | some c =>
      rcases (by simpa [detectSectionsLoop, pushCur] using hs :
          s ∈ sections ∨ s = c) with h | h
      · exact hsec s h
      · exact h ▸ (hcur c rfl).1
  | cons message rest ih =>
    intro sections cur sid prev hsec hcur hchain s hs
    cases cur with
    | none =>
      simp only [detectSectionsLoop, Option.isNone_none, Bool.true_or, if_true] at hs
      refine ih (pushCur sections none) (some (newSection message
        (effectiveTimestamp now message) sid)) (sid + 1) (some message) ?_ ?_ ?_ s hs
      · simpa [pushCur] using hsec
      · intro c hc
        cases hc
        exact ⟨le_refl _, message, rfl, rfl⟩
      · rcases prev with _ | p
        · simpa using hchain
        · simpa using (by simpa using hchain : List.Chain' (· ≤ ·)
            ((effectiveTimestamp now p :: effectiveTimestamp now message ::
              rest.map (effectiveTimestamp now)))).tail
    | some c =>
      obtain ⟨hc1, p, hp, hc2⟩ := hcur c rfl
      subst hp
      have hchain' : List.Chain' (· ≤ ·)
          (effectiveTimestamp now p :: effectiveTimestamp now message ::
            rest.map (effectiveTimestamp now)) := by simpa using hchain
      simp only [detectSectionsLoop, Option.isNone_some, Bool.false_or] at hs
      split at hs
      · refine ih (pushCur sections (some c)) (some (newSection message
          (effectiveTimestamp now message) sid)) (sid + 1) (some message) ?_ ?_ ?_ s hs
        · intro t ht
          rcases (by simpa [pushCur] using ht : t ∈ sections ∨ t = c) with h | h
          · exact hsec t h
          · exact h ▸ hc1
        · intro d hd
          cases hd
          exact ⟨le_refl _, message, rfl, rfl⟩
        · exact hchain'.tail
      · refine ih sections (some (appendToSection c message
          (effectiveTimestamp now message))) sid (some message) hsec ?_ ?_ s hs
        · intro d hd
          cases hd
          refine ⟨?_, message, rfl, rfl⟩
          have hle : effectiveTimestamp now p ≤ effectiveTimestamp now message :=
            hchain'.rel_head
          simp only [appendToSection]
          exact le_trans hc1 (hc2 ▸ hle)
        · exact hchain'.tail

/-- C2 amended: for inputs whose effective timestamps are non-decreasing (the
time-ordered streams the spec's data model assumes), every section produced by
detectSections satisfies endTime >= startTime.  Without that ordering the
claim fails (endTime_lt_startTime_cex). -/
theorem endTime_ge_startTime_of_sorted (now : Int) (msgs : List Message) (opts : SegOptions)
    (hsorted : List.Chain' (· ≤ ·) (msgs.map (effectiveTimestamp now))) :
    ∀ s ∈ detectSections now msgs opts, s.startTime ≤ s.endTime := by
  intro s hs
  unfold detectSections at hs
  by_cases h : msgs.isEmpty
  · rw [if_pos h] at hs
    simp at hs
  · rw [if_neg h] at hs
    exact loop_time_invariant now opts msgs [] none 0 none (by simp)
      (by intro c hc; cases hc) (by simpa using hsorted) s hs

/-- Witness for endTime_ge_startTime_of_sorted at a concrete sorted input. -/
theorem endTime_ge_startTime_of_sorted_witness :
    ((detectSections 0 [{ timestamp := some 1000 }, { timestamp := some 2000 }] {}).headD
        default).startTime ≤
      ((detectSections 0 [{ timestamp := some 1000 }, { timestamp := some 2000 }] {}).headD
        default).endTime :=
  endTime_ge_startTime_of_sorted 0
    [{ timestamp := some 1000 }, { timestamp := some 2000 }] {}
    (by norm_num [List.chain'_cons, effectiveTimestamp]) _ (by decide)

/-- C7: given two messages more than timeGap minutes apart (and no marker on
the second), detectSections starts a new section at the second message; given
two messages within the gap with no marker and no topic change, the second
stays in the first section. -/
theorem section_boundary_triggers (now : Int) (opts : SegOptions) (m1 m2 : Message) :
    (isTimedOut (effectiveTimestamp now m1) (effectiveTimestamp now m2) opts.timeGap = true →
      hasSectionMarker m2.content opts.sectionMarkers = false →
      (detectSections now [m1, m2] opts).map Section.messages = [[m1], [m2]]) ∧
    (isTimedOut (effectiveTimestamp now m1) (effectiveTimestamp now m2) opts.timeGap = false →
      hasSectionMarker m2.content opts.sectionMarkers = false →
      hasTopicChange m1 m2 = false →
      (detectSections now [m1, m2] opts).map Section.messages = [[m1, m2]]) := by
  constructor
  · intro hgap hmark
    simp [detectSections, detectSectionsLoop, pushCur, newSection, hgap, hmark]
  · intro hgap hmark htop
    simp [detectSections, detectSectionsLoop, pushCur, newSection, appendToSection,
      hgap, hmark, htop]

/-- Witness for section_boundary_triggers: 31 minutes apart versus 1
millisecond apart. -/
theorem section_boundary_triggers_witness :
    (detectSections 0 [{ timestamp := some 1 }, { timestamp := some 1860001 }] {}).map
        Section.messages =
      [[{ timestamp := some 1 }], [{ timestamp := some 1860001 }]] ∧
    (detectSections 0 [{ timestamp := some 1 }, { timestamp := some 2 }] {}).map
        Section.messages = [[{ timestamp := some 1 }, { timestamp := some 2 }]] :=
  ⟨(section_boundary_triggers 0 {} _ _).1 (by decide) (by decide),
   (section_boundary_triggers 0 {} _ _).2 (by decide) (by decide) (by decide)⟩

/-- C10: a message whose timestamp is falsy (absent, null, or the number 0)
gets the wall clock of the call as its effective time, so the section it
opens carries the wall clock as startTime and endTime; in particular an
epoch-0 timestamp is replaced rather than preserved. -/
theorem falsy_timestamp_uses_wall_clock (now : Int) (m : Message)
    (h : m.timestamp = none ∨ m.timestamp = some 0) :
    effectiveTimestamp now m = now ∧
    ∀ opts : SegOptions, ∀ s ∈ detectSections now [m] opts,
      s.startTime = now ∧ s.endTime = now := by
  have heff : effectiveTimestamp now m = now := by
    rcases h with h | h <;> simp [effectiveTimestamp, h]
  refine ⟨heff, ?_⟩
  intro opts s hs
  have : s = newSection m now 0 := by
    simpa [detectSections, detectSectionsLoop, pushCur, heff] using hs
  subst this
  simp [newSection]

/-- Witness for falsy_timestamp_uses_wall_clock at an epoch-0 timestamp. -/
theorem falsy_timestamp_uses_wall_clock_witness :
    ((detectSections 12345 [{ timestamp := some 0 }] {}).headD default).startTime = 12345 :=
  ((falsy_timestamp_uses_wall_clock 12345 { timestamp := some 0 } (Or.inr rfl)).2 {}
    ((detectSections 12345 [{ timestamp := some 0 }] {}).headD default) (by decide)).1

/-! ## Merging -/

/-- Membership through one Set insertion. -/
lemma mem_addUnique (acc : List String) (s x : String) :
    x ∈ addUnique acc s ↔ x ∈ acc ∨ x = s := by
  unfold addUnique
  split
  · next hmem =>
    constructor
    · exact Or.inl
    · rintro (h | rfl)
      · exact h
      · exact hmem
  · simp

/-- One Set insertion preserves freedom from duplicates. -/
lemma addUnique_nodup (acc : List String) (s : String) (h : acc.Nodup) :
    (addUnique acc s).Nodup := by
  unfold addUnique
  split
  · exact h
  · next hns => simp [List.nodup_append, h, hns]

/-- Folding Set insertions preserves freedom from duplicates. -/
lemma foldl_addUnique_nodup (l : List String) :
    ∀ acc : List String, acc.Nodup → (l.foldl addUnique acc).Nodup := by
  induction l with
  | nil => intro acc h; exact h
  | cons x l ih => intro acc h; exact ih _ (addUnique_nodup acc x h)

/-- Membership through folded Set insertions. -/
lemma mem_foldl_addUnique (l : List String) :
    ∀ (acc : List String) (x : String), x ∈ l.foldl addUnique acc ↔ x ∈ acc ∨ x ∈ l := by
  induction l with
  | nil => simp
  | cons y l ih =>
    intro acc x
    simp only [List.foldl_cons, ih, mem_addUnique, List.mem_cons]
    tauto

/-- C6: at the default threshold, three sections whose topics go equal,
equal, different merge into two: the first two fuse (messages concatenated in
order, endTime from the absorbed section, participants the duplicate-free
union of both lists, id/title/topic/startTime kept from the survivor) and the
third stays separate. -/
theorem merge_fuses_adjacent_same_topic (s1 s2 s3 : Section)
    (h12 : s1.topic = s2.topic) (h23 : s2.topic ≠ s3.topic) :
    mergeSimilarSections [s1, s2, s3] defaultThreshold = [fuseSections s1 s2, s3] ∧
    (fuseSections s1 s2).messages = s1.messages ++ s2.messages ∧
    (fuseSections s1 s2).endTime = s2.endTime ∧
    (fuseSections s1 s2).id = s1.id ∧
    (fuseSections s1 s2).title = s1.title ∧
    (fuseSections s1 s2).topic = s1.topic ∧
    (fuseSections s1 s2).startTime = s1.startTime ∧
    (fuseSections s1 s2).participants.Nodup ∧
    (∀ x, x ∈ (fuseSections s1 s2).participants ↔
      x ∈ s1.participants ∨ x ∈ s2.participants) := by
  have hth1 : ((1:ℚ) ≥ defaultThreshold) := by rw [defaultThreshold_eq]; norm_num
  have hth0 : ¬((0:ℚ) ≥ defaultThreshold) := by rw [defaultThreshold_eq]; norm_num
  have hft : (fuseSections s1 s2).topic = s1.topic := rfl
  have hne : (fuseSections s1 s2).topic ≠ s3.topic := by rw [hft, h12]; exact h23
  refine ⟨?_, rfl, rfl, rfl, rfl, rfl, rfl, ?_, ?_⟩
  · simp only [mergeSimilarSections, List.length_cons, mergeLoop]
    rw [if_neg (by norm_num)]
    rw [if_pos h12, if_pos hth1, if_neg hne, if_neg hth0]
    simp [mergeLoop]
  · exact foldl_addUnique_nodup _ _ List.nodup_nil
  · intro x
    rw [show (fuseSections s1 s2).participants =
      (s1.participants ++ s2.participants).foldl addUnique [] from rfl]
    rw [mem_foldl_addUnique]
    simp

/-- Concrete fixture sections for the merge witnesses. -/
def exS1 : Section :=
  { id := 0, title := "a", messages := [{ content := "x" }], startTime := 0, endTime := 1,
    topic := "technical", participants := ["alice"] }

/-- Second fixture section, same topic as exS1, overlapping participants. -/
def exS2 : Section :=
  { id := 1, title := "b", messages := [{ content := "y" }], startTime := 2, endTime := 3,
    topic := "technical", participants := ["bob", "alice"] }

/-- Third fixture section, different topic. -/
def exS3 : Section :=
  { id := 2, title := "c", messages := [{ content := "z" }], startTime := 4, endTime := 5,
    topic := "planning", participants := ["carol"] }

/-- Witness for merge_fuses_adjacent_same_topic on the fixtures. -/
theorem merge_fuses_adjacent_same_topic_witness :
    mergeSimilarSections [exS1, exS2, exS3] defaultThreshold = [fuseSections exS1 exS2, exS3] :=
  (merge_fuses_adjacent_same_topic exS1 exS2 exS3 rfl (by decide)).1

/-- When no adjacent pair has equal topics, the merge loop copies its input
through unchanged. -/
lemma mergeLoop_no_adjacent (threshold : ℚ) (hth : ¬((0:ℚ) ≥ threshold)) :
    ∀ (rest : List Section) (acc : List Section) (lastSection : Section),
      List.Chain' (fun a b => a.topic ≠ b.topic) (lastSection :: rest) →
      mergeLoop threshold rest acc lastSection = acc ++ lastSection :: rest := by
  intro rest
  induction rest with
  | nil => intro acc lastSection _; simp [mergeLoop]
  | cons cur rest ih =>
    intro acc lastSection hchain
    have hne : lastSection.topic ≠ cur.topic := hchain.rel_head
    simp only [mergeLoop]
    rw [if_neg hne, if_neg hth]
    rw [ih (acc ++ [lastSection]) cur hchain.tail]
    simp

/-- C8: on a section list in which no two adjacent sections have equal topics
(the shape of already-merged output), mergeSimilarSections at the default
threshold returns its input unchanged. -/
theorem merge_noop_on_merged_shape (sections : List Section)
    (h : List.Chain' (fun a b => a.topic ≠ b.topic) sections) :
    mergeSimilarSections sections defaultThreshold = sections := by
  have hth : ¬((0:ℚ) ≥ defaultThreshold) := by rw [defaultThreshold_eq]; norm_num
  cases sections with
  | nil => rfl
  | cons s rest =>
    cases rest with
    | nil => rfl
    | cons s2 rest2 =>
      have hlen : ¬((s :: s2 :: rest2).length < 2) := by
        simp only [List.length_cons]
        omega
      simp only [mergeSimilarSections, if_neg hlen]
      simpa using mergeLoop_no_adjacent defaultThreshold hth (s2 :: rest2) [] s h

/-- Witness for merge_noop_on_merged_shape on two distinct-topic fixtures. -/
theorem merge_noop_on_merged_shape_witness :
    mergeSimilarSections [exS1, exS3] defaultThreshold = [exS1, exS3] :=
  merge_noop_on_merged_shape [exS1, exS3]
    (List.chain'_cons.mpr ⟨by decide, List.chain'_singleton _⟩)

/-- C3 counterexample: running the heap-level merge on two caller-supplied
same-topic section records rewrites the first input record in place (its
messages grow), so the caller's section objects do not survive the call
unchanged. -/
theorem mergeHeap_mutates_input_cex :
    (mergeSimilarSectionsHeap [exS1, exS2] [0, 1] defaultThreshold).1 ≠ [exS1, exS2] := by
  decide

/-- Reading a freshly written address of the store. -/
lemma getD_set_same (l : List Section) (i : Nat) (a : Section) (h : i < l.length) :
    (l.set i a).getD i default = a := by
  simp [List.getD, List.getElem?_set_self', h]

/-- Reading any other address of the store after a write. -/
lemma getD_set_other (l : List Section) (i j : Nat) (a : Section) (h : i ≠ j) :
    (l.set i a).getD j default = l.getD j default := by
  simp [List.getD, List.getElem?_set_ne h]

/-- Refinement invariant of the heap merge loop: outside the already-output
addresses and the current survivor the store still holds the caller's
records, the output addresses read back to the value-level accumulator, and
the final read-back equals the value-level loop. -/
lemma mergeHeapLoop_refines (threshold : ℚ) (store0 : List Section) :
    ∀ (rest : List Nat) (store : List Section) (accRefs : List Nat) (lastRef : Nat)
      (accVals : List Section) (lastVal : Section),
      store.length = store0.length →
      (∀ i, i ∉ accRefs → i ≠ lastRef → store.getD i default = store0.getD i default) →
      accRefs.map (fun r => store.getD r default) = accVals →
      store.getD lastRef default = lastVal →
      lastRef < store.length →
      (∀ r ∈ rest, r < store.length) →
      (accRefs ++ lastRef :: rest).Nodup →
      ((mergeHeapLoop threshold rest store accRefs lastRef).2.map
          (fun r => (mergeHeapLoop threshold rest store accRefs lastRef).1.getD r default)) =
        mergeLoop threshold (rest.map (fun r => store0.getD r default)) accVals lastVal := by
  intro rest
  induction rest with
  | nil =>
    intro store accRefs lastRef accVals lastVal hlen hagree hacc hlast hr hrest hnd
    simp only [mergeHeapLoop, List.map_nil, mergeLoop, List.map_append, List.map_cons]
    rw [hacc, hlast]
  | cons r rest ih =>
    intro store accRefs lastRef accVals lastVal hlen hagree hacc hlast hr hrest hnd
    have hrne : r ≠ lastRef ∧ r ∉ accRefs ∧ lastRef ∉ accRefs := by
      rw [List.nodup_append] at hnd
      obtain ⟨hnd1, hnd2, hdisj⟩ := hnd
      refine ⟨?_, ?_, ?_⟩
      · intro heq
        exact (List.nodup_cons.mp hnd2).1 (heq ▸ List.mem_cons_self _ _)
      · intro hmem
        exact hdisj hmem (by simp)
      · intro hmem
        exact hdisj hmem (by simp)
    have hcur : store.getD r default = store0.getD r default :=
      hagree r hrne.2.1 hrne.1
    have hfuse : ((mergeHeapLoop threshold rest
          (store.set lastRef (fuseSections lastVal (store0.getD r default)))
          accRefs lastRef).2.map
        (fun x => (mergeHeapLoop threshold rest
          (store.set lastRef (fuseSections lastVal (store0.getD r default)))
          accRefs lastRef).1.getD x default)) =
        mergeLoop threshold (rest.map (fun x => store0.getD x default)) accVals
          (fuseSections lastVal (store0.getD r default)) := by
      refine ih (store.set lastRef (fuseSections lastVal (store0.getD r default)))
        accRefs lastRef accVals (fuseSections lastVal (store0.getD r default))
        ?_ ?_ ?_ ?_ ?_ ?_ ?_
      · simpa using hlen
      · intro i hi hine
        rw [getD_set_other _ _ _ _ (fun h => hine h.symm)]
        exact hagree i hi hine
      · rw [← hacc]
        refine List.map_congr_left ?_
        intro a ha
        have hane : lastRef ≠ a := fun h => hrne.2.2 (h ▸ ha)
        rw [getD_set_other _ _ _ _ hane]
      · exact getD_set_same _ _ _ hr
      · simpa using hr
      · intro x hx
        simpa using hrest x (by simp [hx])
      · refine List.Nodup.sublist ?_ hnd
        refine List.Sublist.append_left ?_ accRefs
        exact List.Sublist.cons₂ _ (List.sublist_cons_self _ _)
    have hpush : ((mergeHeapLoop threshold rest store (accRefs ++ [lastRef]) r).2.map
        (fun x => (mergeHeapLoop threshold rest store
          (accRefs ++ [lastRef]) r).1.getD x default)) =
        mergeLoop threshold (rest.map (fun x => store0.getD x default))
          (accVals ++ [lastVal]) (store0.getD r default) := by
      refine ih store (accRefs ++ [lastRef]) r (accVals ++ [lastVal])
        (store0.getD r default) hlen ?_ ?_ ?_ ?_ ?_ ?_
      · intro i hi hine
        exact hagree i (fun h => hi (by simp [h])) (fun h => hi (by simp [h]))
      · rw [List.map_append, hacc, List.map_cons, List.map_nil, hlast]
      · exact hcur
      · exact hrest r (by simp)
      · intro x hx
        exact hrest x (by simp [hx])
      · have hperm : accRefs ++ [lastRef] ++ r :: rest = accRefs ++ lastRef :: r :: rest := by
          simp
        rw [hperm]
        exact hnd
    by_cases htop : lastVal.topic = (store0.getD r default).topic
    · by_cases hth : (1 : ℚ) ≥ threshold
      · simp only [mergeHeapLoop, mergeLoop, List.map_cons, hlast, hcur,
          if_pos htop, if_pos hth]
        exact hfuse
      · simp only [mergeHeapLoop, mergeLoop, List.map_cons, hlast, hcur,
          if_pos htop, if_neg hth]
        exact hpush
    · by_cases hth : (0 : ℚ) ≥ threshold
      · simp only [mergeHeapLoop, mergeLoop, List.map_cons, hlast, hcur,
          if_neg htop, if_pos hth]
        exact hfuse
      · simp only [mergeHeapLoop, mergeLoop, List.map_cons, hlast, hcur,
          if_neg htop, if_neg hth]
        exact hpush

/-- C3 amended: the source's mergeSimilarSections is not pure in its inputs:
it mutates the caller-supplied surviving section records in place
(mergeHeap_mutates_input_cex); what does hold is that, for distinct in-range
section objects, the references it returns read back, after the call, to
exactly the value-level merge of the input values. -/
theorem mergeHeap_refines_pure (store : List Section) (refs : List Nat) (threshold : ℚ)
    (hvalid : ∀ r ∈ refs, r < store.length) (hnodup : refs.Nodup) :
    ((mergeSimilarSectionsHeap store refs threshold).2.map
        (fun r => (mergeSimilarSectionsHeap store refs threshold).1.getD r default)) =
      mergeSimilarSections (refs.map (fun r => store.getD r default)) threshold := by
  unfold mergeSimilarSectionsHeap mergeSimilarSections
  rw [List.length_map]
  by_cases hlen : refs.length < 2
  · rw [if_pos hlen, if_pos hlen]
  · rw [if_neg hlen, if_neg hlen]
    cases refs with
    | nil => simp
    | cons r rest =>
      simp only [List.map_cons]
      exact mergeHeapLoop_refines threshold store rest store [] r []
        (store.getD r default) rfl (fun _ _ _ => rfl) rfl rfl
        (hvalid r (by simp)) (fun x hx => hvalid x (by simp [hx]))
        (by simpa using hnodup)

/-- Witness for mergeHeap_refines_pure on the three fixture sections. -/
theorem mergeHeap_refines_pure_witness :
    ((mergeSimilarSectionsHeap [exS1, exS2, exS3] [0, 1, 2] defaultThreshold).2.map
        (fun r => (mergeSimilarSectionsHeap [exS1, exS2, exS3] [0, 1, 2]
          defaultThreshold).1.getD r default)) =
      mergeSimilarSections ([0, 1, 2].map
        (fun r => [exS1, exS2, exS3].getD r default)) defaultThreshold :=
  mergeHeap_refines_pure [exS1, exS2, exS3] [0, 1, 2] defaultThreshold
    (by decide) (by decide)

/-! ## Section ids and fallback titles -/

/-- The fallback-title obligation of one section: when title extraction on
the section's first (triggering) message yields no title (null, or the empty
string, both falsy under the or-else), the stored title is the fallback built
from the counter after the post-increment, hence id + 1. -/
def sectionTitleOk (s : Section) : Prop :=
  (extractTitle (s.messages.headD default).content = none ∨
    extractTitle (s.messages.headD default).content = some "") →
  s.title = "Section " ++ toString (s.id + 1)

/-- A freshly created section satisfies the fallback-title obligation. -/
lemma newSection_titleOk (message : Message) (ts : Int) (sid : Nat) :
    sectionTitleOk (newSection message ts sid) := by
  intro h
  rcases h with h | h <;>
    simp only [newSection, List.headD_cons] at h ⊢ <;>
    simp [titleOrFallback, h]

/-- Appending a message to an open section does not disturb the
fallback-title obligation (title, id and head message are untouched). -/
lemma append_keeps_titleOk (c : Section) (message : Message) (ts : Int)
    (hne : c.messages ≠ []) (h : sectionTitleOk c) :
    sectionTitleOk (appendToSection c message ts) := by
  unfold sectionTitleOk at h ⊢
  cases hm : c.messages with
  | nil => exact absurd hm hne
  | cons m0 tl =>
    rw [hm] at h
    simp only [appendToSection, hm, List.cons_append, List.headD_cons] at h ⊢
    exact h

/-- Invariant of the segmentation loop for ids and titles: the ids of the
closed-plus-open sections are exactly the counter range, and every such
section is non-empty and satisfies the fallback-title obligation. -/
lemma loop_ids_titles (now : Int) (opts : SegOptions) (rest : List Message) :
    ∀ (sections : List Section) (cur : Option Section) (sid : Nat) (prev : Option Message),
      ((pushCur sections cur).map Section.id = List.range sid) →
      (∀ s ∈ pushCur sections cur, sectionTitleOk s ∧ s.messages ≠ []) →
      ((detectSectionsLoop now opts rest sections cur sid prev).map Section.id =
        List.range (detectSectionsLoop now opts rest sections cur sid prev).length) ∧
      ∀ s ∈ detectSectionsLoop now opts rest sections cur sid prev, sectionTitleOk s := by
  induction rest with
  | nil =>
    intro sections cur sid prev hids hok
    have hres : detectSectionsLoop now opts [] sections cur sid prev = pushCur sections cur := by
      simp [detectSectionsLoop]
    rw [hres]
    have hlen : (pushCur sections cur).length = sid := by
      have h := congrArg List.length hids
      simpa using h
    rw [hlen]
    exact ⟨hids, fun s hs => (hok s hs).1⟩
  | cons message rest ih =>
    intro sections cur sid prev hids hok
    have hstepNew : ∀ (sections' : List Section) (cur' : Option Section),
        pushCur sections' cur' = pushCur sections cur →
        ((pushCur (pushCur sections' cur')
            (some (newSection message (effectiveTimestamp now message) sid))).map Section.id =
          List.range (sid + 1)) ∧
        (∀ s ∈ pushCur (pushCur sections' cur')
            (some (newSection message (effectiveTimestamp now message) sid)),
          sectionTitleOk s ∧ s.messages ≠ []) := by
      intro sections' cur' heq
      rw [heq]
      constructor
      · rw [List.range_succ,
          show pushCur (pushCur sections cur)
            (some (newSection message (effectiveTimestamp now message) sid)) =
            pushCur sections cur ++ [newSection message (effectiveTimestamp now message) sid]
          from rfl,
          List.map_append, hids]
        rfl
      · intro s hs
        rcases (by simpa [pushCur] using hs : s ∈ pushCur sections cur ∨
            s = newSection message (effectiveTimestamp now message) sid) with h | h
        · exact hok s h
        · subst h
          exact ⟨newSection_titleOk message (effectiveTimestamp now message) sid,
            by simp [newSection]⟩
    cases cur with
    | none =>
      simp only [detectSectionsLoop, Option.isNone_none, Bool.true_or, if_true]
      exact ih (pushCur sections none)
        (some (newSection message (effectiveTimestamp now message) sid)) (sid + 1)
        (some message) (hstepNew sections none rfl).1 (hstepNew sections none rfl).2
    | some c =>
      have hc : sectionTitleOk c ∧ c.messages ≠ [] := hok c (by simp [pushCur])
      simp only [detectSectionsLoop, Option.isNone_some, Bool.false_or]
      split
      · exact ih (pushCur sections (some c))
          (some (newSection message (effectiveTimestamp now message) sid)) (sid + 1)
          (some message) (hstepNew sections (some c) rfl).1 (hstepNew sections (some c) rfl).2
      · refine ih sections
          (some (appendToSection c message (effectiveTimestamp now message))) sid
          (some message) ?_ ?_
        · simp only [pushCur, List.map_append, List.map_cons, List.map_nil] at hids ⊢
          rw [show (appendToSection c message (effectiveTimestamp now message)).id = c.id
            from rfl]
          exact hids
        · intro s hs
          rcases (by simpa [pushCur] using hs : s ∈ sections ∨
              s = appendToSection c message (effectiveTimestamp now message)) with h | h
          · exact hok s (by simp [pushCur, h])
          · subst h
            refine ⟨append_keeps_titleOk c message _ hc.2 hc.1, ?_⟩
            simp [appendToSection]

/-- C9: detectSections assigns ids as a 0-based running counter (the id list
is the range of the output length), and a section whose triggering message
yields no extracted title receives the fallback title built from the counter
after the post-increment, that is, Section id+1 (so the first section is
titled Section 1 while its id is 0). -/
theorem section_ids_and_fallback_titles (now : Int) (msgs : List Message) (opts : SegOptions) :
    ((detectSections now msgs opts).map Section.id =
      List.range (detectSections now msgs opts).length) ∧
    ∀ s ∈ detectSections now msgs opts, sectionTitleOk s := by
  unfold detectSections
  by_cases h : msgs.isEmpty
  · rw [if_pos h]
    exact ⟨rfl, fun s hs => absurd hs (List.not_mem_nil s)⟩
  · rw [if_neg h]
    exact loop_ids_titles now opts msgs [] none 0 none (by simp [pushCur])
      (by intro s hs; simp [pushCur] at hs)

/-- Witness for section_ids_and_fallback_titles: one empty-content message
gives a section with id 0 titled Section 1. -/
theorem section_ids_and_fallback_titles_witness :
    ((detectSections 0 [{ content := "" }] {}).headD default).title = "Section 1" := by
  have h := (section_ids_and_fallback_titles 0 [{ content := "" }] {}).2
    ((detectSections 0 [{ content := "" }] {}).headD default) (by decide) (by decide)
  exact h.trans (by decide)

/-! ## Raw-text parser ids -/

/-- Both branches of the message literal carry the positional index as id. -/
lemma mkParsedMessage_id (now : Int) (preserveFormatting : Bool) (index : Nat)
    (segment : String) :
    (mkParsedMessage now preserveFormatting index segment).id = some index := by
  unfold mkParsedMessage
  split <;> rfl

/-- The ids produced from a segment list starting at a given index form a
subsequence of the index range, and every kept message has content. -/
lemma parseSegments_ids (now : Int) (preserveFormatting : Bool) (segs : List String) :
    ∀ index : Nat,
      ((parseSegments now preserveFormatting index segs).map Message.id).Sublist
        ((List.range' index segs.length).map some) ∧
      ∀ m ∈ parseSegments now preserveFormatting index segs, m.content ≠ "" := by
  induction segs with
  | nil => intro index; simp [parseSegments]
  | cons seg rest ih =>
    intro index
    constructor
    · simp only [parseSegments, List.length_cons, List.range'_succ, List.map_cons]
      by_cases h : (mkParsedMessage now preserveFormatting index seg).content = ""
      · rw [if_pos h]
        simp only [List.nil_append]
        exact ((ih (index + 1)).1).cons (some index)
      · rw [if_neg h]
        simp only [List.cons_append, List.nil_append, List.map_cons,
          mkParsedMessage_id]
        exact ((ih (index + 1)).1).cons₂ (some index)
    · intro m hm
      simp only [parseSegments] at hm
      by_cases h : (mkParsedMessage now preserveFormatting index seg).content = ""
      · rw [if_pos h] at hm
        exact (ih (index + 1)).2 m (by simpa using hm)
      · rw [if_neg h] at hm
        rcases (by simpa using hm :
            m = mkParsedMessage now preserveFormatting index seg ∨
              m ∈ parseSegments now preserveFormatting (index + 1) rest) with h1 | h1
        · exact h1 ▸ h
        · exact (ih (index + 1)).2 m h1

/-- C4 counterexample: on Bob: then an empty line then hi, the author-only
first segment is dropped from the output but still consumes positional id 0,
so the single returned message carries id 1 and the returned ids are not the
contiguous 0-based indices over the kept segments. -/
theorem parseRaw_id_gap_cex :
    (parseRawConversation 0 "Bob:\n\nhi" "\n\n" true).map Message.id ≠
      (List.range (parseRawConversation 0 "Bob:\n\nhi" "\n\n" true).length).map some := by
  decide

/-- C4 amended: a segment whose cleaned content is empty after stripping the
author prefix is dropped from the output but does consume a positional id, so
the ids of the returned messages form a (strictly increasing) subsequence of
the 0-based indices over the trim-kept segments, with gaps where such
segments were dropped; every returned message has non-empty content. -/
theorem parseRaw_ids_sublist (now : Int) (text delimiter : String)
    (preserveFormatting : Bool) :
    ((parseRawConversation now text delimiter preserveFormatting).map Message.id).Sublist
      ((List.range
        ((strSplit text delimiter).filter (fun s => strTrim s ≠ "")).length).map some) ∧
    ∀ m ∈ parseRawConversation now text delimiter preserveFormatting, m.content ≠ "" := by
  unfold parseRawConversation
  by_cases h : text = ""
  · rw [if_pos h]
    exact ⟨by simp, by intro m hm; simp at hm⟩
  · rw [if_neg h]
    have hmain := parseSegments_ids now preserveFormatting
      ((strSplit text delimiter).filter (fun s => strTrim s ≠ "")) 0
    rw [List.range_eq_range']
    exact hmain

/-- Witness for parseRaw_ids_sublist at the counterexample input: the kept
message has content and the id list is a subsequence of the index range. -/
theorem parseRaw_ids_sublist_witness :
    ((parseRawConversation 0 "Bob:\n\nhi" "\n\n" true).map Message.id).Sublist
      ((List.range
        ((strSplit "Bob:\n\nhi" "\n\n").filter (fun s => strTrim s ≠ "")).length).map some) ∧
    ((parseRawConversation 0 "Bob:\n\nhi" "\n\n" true).headD default).content ≠ "" :=
  ⟨(parseRaw_ids_sublist 0 "Bob:\n\nhi" "\n\n" true).1,
   (parseRaw_ids_sublist 0 "Bob:\n\nhi" "\n\n" true).2 _ (by decide)⟩

/-! ## Topic classifier against its specification -/

/-- The score of one keyword list against a content, as the spec words it:
the number of keywords occurring as substrings of the lower-cased content,
each keyword counted at most once. -/
def topicScoreSpec (content : String) (keywords : List String) : Nat :=
  (keywords.filter (fun keyword => strIncludes (lowerStr content) keyword)).length

/-- The best score over the topic table. -/
def bestScore (content : String) : Nat :=
  topicsTable.foldr (fun tk n => max (topicScoreSpec content tk.2) n) 0

/-- Specification-side topic classifier, following the words of claim C5:
score each of the five fixed topics, return the topic with the strictly
highest score with ties broken by the enumeration order of the table, and
return general when the best score is 0 or the content is empty. -/
def detectTopicSpec (content : String) : String :=
  if content = "" then "general"
  else if bestScore content = 0 then "general"
  else
    ((topicsTable.find? (fun tk => topicScoreSpec content tk.2 == bestScore content)).map
      Prod.fst).getD "general"

/-- The seed of a fold of maxima is a lower bound of its result. -/
lemma le_foldr_max {α : Type} (f : α → Nat) (l : List α) (s : Nat) :
    s ≤ l.foldr (fun x n => max (f x) n) s := by
  induction l with
  | nil => exact le_refl s
  | cons x l ih => exact le_trans ih (Nat.le_max_right _ _)

/-- A fold of maxima is its seed or is attained by a list element. -/
lemma foldr_max_attained {α : Type} (f : α → Nat) (l : List α) (s : Nat) :
    l.foldr (fun x n => max (f x) n) s = s ∨
      ∃ y ∈ l, f y = l.foldr (fun x n => max (f x) n) s := by
  induction l with
  | nil => exact Or.inl rfl
  | cons x l ih =>
    rcases Nat.le_total (f x) (l.foldr (fun x n => max (f x) n) s) with hle | hge
    · rw [List.foldr_cons, Nat.max_eq_right hle]
      rcases ih with h | ⟨y, hy, hfy⟩
      · exact Or.inl h
      · exact Or.inr ⟨y, List.mem_cons_of_mem x hy, hfy⟩
    · rw [List.foldr_cons, Nat.max_eq_left hge]
      exact Or.inr ⟨x, List.mem_cons_self x l, rfl⟩

/-- Raising the seed of a fold of maxima commutes with a final max. -/
lemma foldr_max_lift {α : Type} (f : α → Nat) (l : List α) (a b : Nat) (h : b ≤ a) :
    l.foldr (fun x n => max (f x) n) a = max a (l.foldr (fun x n => max (f x) n) b) := by
  induction l with
  | nil => simp [Nat.max_eq_left h]
  | cons x l ih =>
    rw [List.foldr_cons, List.foldr_cons, ih]
    rw [Nat.max_left_comm]

/-- A mapped getD does not depend on its default when the option is some. -/
lemma map_getD_irrel {α β : Type} (o : Option α) (g : α → β) (a b : β) (h : o.isSome) :
    (o.map g).getD a = (o.map g).getD b := by
  cases o with
  | none => cases h
  | some x => rfl

/-- The strict-improvement fold of detectTopic computes the maximum score
together with the first entry attaining it (or the seed pair when nothing
beats the seed score). -/
lemma foldl_argmax {α : Type} (f : α → Nat) (g : α → String) :
    ∀ (l : List α) (m : Nat) (t : String),
      l.foldl (fun acc x => if f x > acc.1 then (f x, g x) else acc) (m, t) =
        (l.foldr (fun x n => max (f x) n) m,
          if l.foldr (fun x n => max (f x) n) m = m then t
          else ((l.find? (fun x => f x == l.foldr (fun y n => max (f y) n) m)).map g).getD t)
  | [], m, t => by simp
  | x :: l, m, t => by
    rw [List.foldl_cons, List.foldr_cons]
    by_cases hx : f x > m
    · rw [if_pos hx]
      rw [foldl_argmax f g l (f x) (g x)]
      have hM : l.foldr (fun x n => max (f x) n) (f x) =
          max (f x) (l.foldr (fun x n => max (f x) n) m) :=
        foldr_max_lift f l (f x) m (le_of_lt hx)
      rw [hM]
      have hge : f x ≤ max (f x) (l.foldr (fun x n => max (f x) n) m) := Nat.le_max_left _ _
      have hMm : max (f x) (l.foldr (fun x n => max (f x) n) m) ≠ m :=
        fun h => absurd (h ▸ hge) (Nat.not_le_of_lt hx)
      rw [if_neg hMm]
      by_cases hfx : f x = max (f x) (l.foldr (fun x n => max (f x) n) m)
      · rw [if_pos hfx.symm, List.find?_cons_of_pos _ (by simpa using hfx)]
        rfl
      · rw [if_neg (fun h => hfx h.symm),
          List.find?_cons_of_neg _ (by simpa using hfx)]
        have hatt : ∃ y ∈ l,
            (f y == max (f x) (l.foldr (fun x n => max (f x) n) m)) = true := by
          rcases foldr_max_attained f l (f x) with h | ⟨y, hy, hfy⟩
          · exact absurd (hM.symm.trans h).symm hfx
          · exact ⟨y, hy, by rw [beq_iff_eq]; exact hfy.trans hM⟩
        exact congrArg (fun z => (max (f x) (l.foldr (fun x n => max (f x) n) m), z))
          (map_getD_irrel _ g _ _ (List.find?_isSome.mpr hatt))
    · rw [if_neg hx]
      rw [foldl_argmax f g l m t]
      have hle : f x ≤ l.foldr (fun x n => max (f x) n) m :=
        le_trans (Nat.le_of_not_lt hx) (le_foldr_max f l m)
      rw [Nat.max_eq_right hle]
      by_cases hm : l.foldr (fun x n => max (f x) n) m = m
      · rw [if_pos hm, if_pos hm]
      · rw [if_neg hm, if_neg hm]
        have hfx : f x ≠ l.foldr (fun x n => max (f x) n) m := by
          intro h
          exact hm (Nat.le_antisymm (h ▸ Nat.le_of_not_lt hx) (le_foldr_max f l m))
        rw [List.find?_cons_of_neg _ (by simpa using hfx)]

/-- C5: detectTopic implements the specification classifier exactly: score
each fixed topic by the number of its keywords occurring as substrings of the
lower-cased content (each keyword counted at most once), return the topic
with the strictly highest score, break ties by the enumeration order of the
table, and return general for empty content or a best score of zero; the
spec's two concrete examples are included. -/
theorem detectTopic_matches_spec :
    (∀ content : String, detectTopic content = detectTopicSpec content) ∧
    detectTopic "I found a bug in the function" = "technical" ∧
    detectTopic "hello there" = "general" := by
  refine ⟨?_, by decide, by decide⟩
  intro content
  unfold detectTopic detectTopicSpec
  by_cases h : content = ""
  · rw [if_pos h, if_pos h]
  · rw [if_neg h, if_neg h]
    exact congrArg Prod.snd (foldl_argmax
      (fun tk : String × List String => topicScoreSpec content tk.2) Prod.fst
      topicsTable 0 "general")

end ConvParser
